import Mathlib

/-!
Shallow embedding of the benchmark-generation and evaluation pipeline of the
`galaxy-tool-recommendation-agent-benchmark` repository, together with proofs
of the frozen claims about it.

Conventions used throughout:
* Python strings are modelled as Lean `String` when only library operations
  (trim, startsWith, splitting) are needed, and as `List Char` where the code
  performs character-level work (the toolshed-id splitting, the front-matter
  regex scan).
* Python float arithmetic (`math.log2`, IDF weights) is modelled by exact real
  numbers; those definitions are `noncomputable` by necessity, but all claim
  hypotheses stay decidable so witnesses can be checked concretely.
* Python dicts that are only read through `.get` are modelled as association
  lists read through a first-match lookup (keys are unique at every call site).
-/

namespace EvalRec

/-! Embedding of `src/scripts/eval/evaluate_recommendations.py`. -/

/-- Characters of the toolshed URL literal `"toolshed.g2.bx.psu.edu/"` that
`normalize_tool_id` tests with `str.startswith`. -/
def toolshedPre : List Char := "toolshed.g2.bx.psu.edu/".toList

/-- Python `str.split(sep)` for a one-character separator: splitting on every
occurrence, keeping empty pieces (`"a//b".split("/") == ["a","","b"]`). -/
def splitOnChar (sep : Char) : List Char → List (List Char)
  | [] => [[]]
  | c :: rest =>
    if c = sep then [] :: splitOnChar sep rest
    else
      match splitOnChar sep rest with
      | [] => [[c]]
      | h :: t => (c :: h) :: t

/-- Python `sep.join(parts)` for a one-character separator. -/
def joinWith (sep : Char) : List (List Char) → List Char
  | [] => []
  | [p] => p
  | p :: rest => p ++ sep :: joinWith sep rest

/-- `normalize_tool_id` (evaluate_recommendations.py lines 55-60): identifiers
starting with the toolshed URL are split on `"/"`, and, when at least two
pieces result, rejoined without the final piece; all others are returned
unchanged. -/
def normalize_tool_id (tool_id : List Char) : List Char :=
  if toolshedPre.isPrefixOf tool_id then
    let parts := splitOnChar '/' tool_id
    if 2 ≤ parts.length then joinWith '/' parts.dropLast else tool_id
  else tool_id

theorem splitOnChar_ne_nil (sep : Char) (l : List Char) : splitOnChar sep l ≠ [] := by
  cases l with
  | nil => simp [splitOnChar]
  | cons c rest =>
    simp only [splitOnChar]
    split
    · simp
    · cases h : splitOnChar sep rest <;> simp

theorem two_le_splitOnChar_length (sep : Char) (l : List Char) (h : sep ∈ l) :
    2 ≤ (splitOnChar sep l).length := by
  induction l with
  | nil => cases h
  | cons c rest ih =>
    simp only [splitOnChar]
    rcases List.mem_cons.mp h with hc | hrest
    · rw [if_pos hc.symm]
      have := splitOnChar_ne_nil sep rest
      cases hsp : splitOnChar sep rest with
      | nil => exact absurd hsp this
      | cons a t => simp
    · by_cases hcs : c = sep
      · rw [if_pos hcs]
        have := splitOnChar_ne_nil sep rest
        cases hsp : splitOnChar sep rest with
        | nil => exact absurd hsp this
        | cons a t => simp
      · rw [if_neg hcs]
        have h2 := ih hrest
        cases hsp : splitOnChar sep rest with
        | nil => exact absurd hsp (splitOnChar_ne_nil sep rest)
        | cons a t =>
          rw [hsp] at h2
          simpa using h2

/-- C9: `normalize_tool_id` maps every identifier beginning with the toolshed
URL to the identifier with its final slash-separated segment removed, and
returns every other identifier unchanged. -/
theorem normalize_tool_id_strips_version (tool_id : List Char) :
    (toolshedPre.isPrefixOf tool_id = true →
      normalize_tool_id tool_id = joinWith '/' ((splitOnChar '/' tool_id).dropLast)) ∧
    (toolshedPre.isPrefixOf tool_id = false → normalize_tool_id tool_id = tool_id) := by
  constructor
  · intro hpre
    have hmem : '/' ∈ tool_id := by
      have hp : toolshedPre <+: tool_id := List.isPrefixOf_iff_prefix.mp hpre
      exact hp.subset (by decide)
    have hlen := two_le_splitOnChar_length '/' tool_id hmem
    simp only [normalize_tool_id, hpre, if_true, if_pos hlen]
  · intro hpre
    simp [normalize_tool_id, hpre]

/-- Concrete instance of C9 on the spec's own example identifier. -/
theorem normalize_tool_id_strips_version_witness :
    normalize_tool_id "toolshed.g2.bx.psu.edu/repos/x/y/1.0.0".toList =
      "toolshed.g2.bx.psu.edu/repos/x/y".toList :=
  ((normalize_tool_id_strips_version "toolshed.g2.bx.psu.edu/repos/x/y/1.0.0".toList).1
    (by decide)).trans (by decide)

/-- `hit_at_k` (lines 74-77): 1.0 if any of the first `k` predictions is in the
gold set, 0.0 otherwise, and 0.0 when the gold set is empty.  The gold set is
modelled as a duplicate-free list read through `contains`. -/
noncomputable def hit_at_k (preds gold : List String) (k : ℕ) : ℝ :=
  if gold.isEmpty then 0
  else if (preds.take k).any (fun p => gold.contains p) then 1 else 0

/-- `mrr_at_k` (lines 80-86): reciprocal of the 1-based rank of the first
correct prediction among the first `k`, else 0.0. -/
noncomputable def mrr_at_k (preds gold : List String) (k : ℕ) : ℝ :=
  if gold.isEmpty then 0
  else
    match (preds.take k).findIdx? (fun p => gold.contains p) with
    | some i => 1 / ((i : ℝ) + 1)
    | none => 0

/-- Loop of the local `dcg` helper (lines 93-98): position counter `i` starts
at 1 and each relevant position contributes `1 / log2(i + 1)`.  `math.log2` is
modelled by the exact real `Real.logb 2`. -/
noncomputable def dcgAux (i : ℕ) : List Bool → ℝ
  | [] => 0
  | r :: rest => (if r then 1 / Real.logb 2 ((i : ℝ) + 1) else 0) + dcgAux (i + 1) rest

/-- `dcg(relevances)` with `enumerate(relevances, start=1)`. -/
noncomputable def dcg (rels : List Bool) : ℝ := dcgAux 1 rels

/-- `ndcg_at_k` (lines 89-104): DCG of binary relevance over the first `k`
predictions, divided by the DCG of `min(len(gold), k)` leading relevant
positions; 0.0 when the gold set is empty or the ideal DCG is not positive. -/
noncomputable def ndcg_at_k (preds gold : List String) (k : ℕ) : ℝ :=
  if gold.isEmpty then 0
  else
    let relevances := (preds.take k).map (fun p => gold.contains p)
    let ideal := List.replicate (min gold.length k) true
    if 0 < dcg ideal then dcg relevances / dcg ideal else 0

theorem dcgAux_nonneg (i : ℕ) (l : List Bool) : 0 ≤ dcgAux i l := by
  induction l generalizing i with
  | nil => simp [dcgAux]
  | cons r rest ih =>
    simp only [dcgAux]
    have hterm : (0 : ℝ) ≤ if r then 1 / Real.logb 2 ((i : ℝ) + 1) else 0 := by
      split
      · apply one_div_nonneg.mpr
        apply Real.logb_nonneg (by norm_num)
        have : (0 : ℝ) ≤ (i : ℝ) := Nat.cast_nonneg i
        linarith
      · exact le_refl 0
    exact add_nonneg hterm (ih (i + 1))

theorem dcg_replicate_pos (n : ℕ) : 0 < dcg (List.replicate (n + 1) true) := by
  simp only [dcg, List.replicate, dcgAux, if_true]
  have h2 : Real.logb 2 (((1 : ℕ) : ℝ) + 1) = 1 := by
    have : (((1 : ℕ) : ℝ) + 1) = 2 := by norm_num
    rw [this]
    exact Real.logb_self_eq_one (by norm_num)
  have hrest := dcgAux_nonneg 2 (List.replicate n true)
  rw [h2]
  norm_num
  linarith

/-- C3: when the prediction list is exactly the (non-empty, duplicate-free)
gold set in its natural order and `k ≥ |gold|`, `ndcg_at_k` returns exactly
1. -/
theorem ndcg_at_k_perfect_one (gold : List String) (k : ℕ)
    (hne : gold ≠ []) (hnd : gold.Nodup) (hk : gold.length ≤ k) :
    ndcg_at_k gold gold k = 1 := by
  have hempty : gold.isEmpty = false := by
    cases gold with
    | nil => exact absurd rfl hne
    | cons a t => rfl
  simp only [ndcg_at_k, hempty, Bool.false_eq_true, if_false]
  have htake : gold.take k = gold := List.take_of_length_le hk
  have hrel : gold.map (fun p => gold.contains p) = List.replicate gold.length true := by
    rw [List.eq_replicate_iff]
    refine ⟨by simp, ?_⟩
    intro b hb
    rcases List.mem_map.mp hb with ⟨p, hp, hpb⟩
    rw [← hpb]
    exact List.elem_eq_true_of_mem hp
  have hmin : min gold.length k = gold.length := min_eq_left hk
  rw [htake, hrel, hmin]
  obtain ⟨n, hn⟩ : ∃ n, gold.length = n + 1 := by
    cases hg : gold with
    | nil => exact absurd hg hne
    | cons a t => exact ⟨t.length, by simp [hg]⟩
  rw [hn]
  rw [if_pos (dcg_replicate_pos n)]
  exact div_self (ne_of_gt (dcg_replicate_pos n))

/-- Concrete instance of C3 at gold set `["a"]`, cutoff 1. -/
theorem ndcg_at_k_perfect_one_witness : ndcg_at_k ["a"] ["a"] 1 = 1 :=
  ndcg_at_k_perfect_one ["a"] 1 (by decide) (by decide) (by decide)

/-- `pred_items.get(qid)`: the gold/prediction mappings (python dicts keyed by
unique item ids) are modelled as association lists read by first match. -/
def lookupPred : List (String × List String) → String → Option (List String)
  | [], _ => none
  | p :: rest, qid => if p.1 == qid then some p.2 else lookupPred rest qid

/-- `count` accumulated by the `compute_metrics` loop (lines 113-120): one per
gold item whose id has a predictions entry. -/
def countScored (pred : List (String × List String)) :
    List (String × List String) → ℕ
  | [] => 0
  | g :: rest =>
    (if (lookupPred pred g.1).isSome then 1 else 0) + countScored pred rest

/-- `totals[k]` accumulated by the `compute_metrics` loop (lines 112-124): per
cutoff, the running sums of hit, mrr and ndcg over gold items that have a
predictions entry; `gold_set = set(gold_tools)` is modelled by `eraseDups`. -/
noncomputable def totalsAt (pred : List (String × List String)) (k : ℕ) :
    List (String × List String) → ℝ × ℝ × ℝ
  | [] => (0, 0, 0)
  | g :: rest =>
    let t := totalsAt pred k rest
    match lookupPred pred g.1 with
    | none => t
    | some preds =>
      (hit_at_k preds g.2.eraseDups k + t.1,
       mrr_at_k preds g.2.eraseDups k + t.2.1,
       ndcg_at_k preds g.2.eraseDups k + t.2.2)

/-- `compute_metrics` (lines 107-137).  The returned pair is the python result
dict: per-cutoff `(hit, mrr, ndcg)` averages keyed by cutoff, plus the
`count.queries` entry, which is `none` exactly on the `count == 0` early
return (lines 126-127). -/
noncomputable def compute_metrics (gold pred : List (String × List String))
    (ks : List ℕ) : List (ℕ × (ℝ × ℝ × ℝ)) × Option ℕ :=
  let count := countScored pred gold
  if count = 0 then (ks.map (fun k => (k, ((0 : ℝ), (0 : ℝ), (0 : ℝ)))), none)
  else
    (ks.map (fun k =>
      let t := totalsAt pred k gold
      (k, (t.1 / (count : ℝ), t.2.1 / (count : ℝ), t.2.2 / (count : ℝ)))),
     some count)

/-- Gold items whose id also has a predictions entry. -/
def scoredItems (gold pred : List (String × List String)) :
    List (String × List String) :=
  gold.filter (fun g => (pred.map Prod.fst).contains g.1)

theorem lookupPred_isSome (pred : List (String × List String)) (qid : String) :
    (lookupPred pred qid).isSome = (pred.map Prod.fst).contains qid := by
  induction pred with
  | nil => rfl
  | cons p rest ih =>
    simp only [lookupPred, List.map, List.contains_cons]
    by_cases h : p.1 = qid
    · subst h
      simp
    · have h1 : (p.1 == qid) = false := beq_eq_false_iff_ne.mpr h
      have h2 : (qid == p.1) = false := beq_eq_false_iff_ne.mpr (Ne.symm h)
      simp only [h1, h2, Bool.false_eq_true, if_false, Bool.false_or]
      exact ih

theorem lookupPred_eq_none (pred : List (String × List String)) (qid : String)
    (hc : (pred.map Prod.fst).contains qid = false) : lookupPred pred qid = none := by
  cases hx : lookupPred pred qid with
  | none => rfl
  | some v =>
    have h := lookupPred_isSome pred qid
    rw [hx, hc] at h
    simp at h

theorem countScored_eq_length_scored (gold pred : List (String × List String)) :
    countScored pred gold = (scoredItems gold pred).length := by
  induction gold with
  | nil => rfl
  | cons g rest ih =>
    have ih' := ih
    simp only [scoredItems] at ih' ⊢
    simp only [countScored, List.filter_cons, lookupPred_isSome]
    cases hc : (pred.map Prod.fst).contains g.1 with
    | false =>
      simp only [Bool.false_eq_true, if_false, Nat.zero_add]
      exact ih'
    | true =>
      simp only [eq_self_iff_true, if_true, List.length_cons]
      omega

theorem totalsAt_eq_sums (gold pred : List (String × List String)) (k : ℕ) :
    totalsAt pred k gold =
      (((scoredItems gold pred).map
          (fun g => hit_at_k ((lookupPred pred g.1).getD []) g.2.eraseDups k)).sum,
       ((scoredItems gold pred).map
          (fun g => mrr_at_k ((lookupPred pred g.1).getD []) g.2.eraseDups k)).sum,
       ((scoredItems gold pred).map
          (fun g => ndcg_at_k ((lookupPred pred g.1).getD []) g.2.eraseDups k)).sum) := by
  induction gold with
  | nil => rfl
  | cons g rest ih =>
    have ih' := ih
    simp only [scoredItems] at ih' ⊢
    simp only [totalsAt, List.filter_cons]
    cases hc : (pred.map Prod.fst).contains g.1 with
    | false =>
      rw [lookupPred_eq_none pred g.1 hc]
      simp only [Bool.false_eq_true, if_false]
      exact ih'
    | true =>
      obtain ⟨preds, hpreds⟩ : ∃ v, lookupPred pred g.1 = some v := by
        have h := lookupPred_isSome pred g.1
        rw [hc] at h
        exact Option.isSome_iff_exists.mp h
      rw [hpreds, if_pos rfl]
      simp only [List.map_cons, List.sum_cons, hpreds, Option.getD_some, ih']

/-- C2: `compute_metrics` averages each of hit, mrr and ndcg over exactly the
gold items whose id also appears in the predictions mapping: every sum ranges
over that intersection only, the denominator is its size, and that size is
reported as the `count.queries` entry. -/
theorem compute_metrics_intersection_average
    (gold pred : List (String × List String)) (ks : List ℕ)
    (h : scoredItems gold pred ≠ []) :
    compute_metrics gold pred ks =
      (ks.map (fun k =>
        (k,
         (((scoredItems gold pred).map
             (fun g => hit_at_k ((lookupPred pred g.1).getD []) g.2.eraseDups k)).sum /
            ((scoredItems gold pred).length : ℝ),
          ((scoredItems gold pred).map
             (fun g => mrr_at_k ((lookupPred pred g.1).getD []) g.2.eraseDups k)).sum /
            ((scoredItems gold pred).length : ℝ),
          ((scoredItems gold pred).map
             (fun g => ndcg_at_k ((lookupPred pred g.1).getD []) g.2.eraseDups k)).sum /
            ((scoredItems gold pred).length : ℝ)))),
       some (scoredItems gold pred).length) := by
  have hcount := countScored_eq_length_scored gold pred
  have hne : (scoredItems gold pred).length ≠ 0 := by
    simpa [List.length_eq_zero] using h
  simp only [compute_metrics, hcount, if_neg hne]
  refine congrArg (fun x => (x, some (scoredItems gold pred).length)) ?_
  refine List.map_congr_left ?_
  intro k _
  rw [totalsAt_eq_sums gold pred k]

/-- Concrete instance of C2: one matched id and one unmatched id on each side;
only the matched pair is counted. -/
theorem compute_metrics_intersection_average_witness :
    compute_metrics [("a", ["t"]), ("b", ["u"])] [("a", ["t"]), ("c", [])] [] =
      ([], some 1) :=
  (compute_metrics_intersection_average
      [("a", ["t"]), ("b", ["u"])] [("a", ["t"]), ("c", [])] [] (by decide)).trans
    (by simp [scoredItems])

/-- C10: when no gold id has a predictions entry, `compute_metrics` returns
0.0 for hit, mrr and ndcg at every cutoff with no `count` entry; in general
the `count` entry is present iff at least one gold item was scored. -/
theorem compute_metrics_empty_count
    (gold pred : List (String × List String)) (ks : List ℕ) :
    ((∀ g ∈ gold, lookupPred pred g.1 = none) →
      compute_metrics gold pred ks =
        (ks.map (fun k => (k, ((0 : ℝ), (0 : ℝ), (0 : ℝ)))), none)) ∧
    ((compute_metrics gold pred ks).2.isSome ↔ countScored pred gold ≠ 0) := by
  constructor
  · intro h
    have hz : countScored pred gold = 0 := by
      induction gold with
      | nil => rfl
      | cons g rest ih =>
        have hg := h g (List.mem_cons_self g rest)
        have ihr := ih (fun x hx => h x (List.mem_cons_of_mem g hx))
        simp [countScored, hg, ihr]
    simp [compute_metrics, hz]
  · by_cases hz : countScored pred gold = 0
    · simp [compute_metrics, hz]
    · simp [compute_metrics, hz]

/-- Concrete instance of C10: a gold item with no prediction entry at all. -/
theorem compute_metrics_empty_count_witness :
    compute_metrics [("a", ["t"])] [] [2] =
      ([(2, ((0 : ℝ), (0 : ℝ), (0 : ℝ)))], none) :=
  ((compute_metrics_empty_count [("a", ["t"])] [] [2]).1 (by decide)).trans
    (by simp)

end EvalRec

namespace Loader

/-! Embedding of `src/gtn_benchmark/gtn_loader.py`. -/

/-- Python ASCII whitespace, as recognised by `str.strip()`. -/
def isSpace (c : Char) : Bool :=
  c = ' ' ∨ c = '\t' ∨ c = '\n' ∨ c = '\r' ∨ c = '\x0c' ∨ c = '\x0b'

/-- Python `str.strip()`: remove leading and trailing whitespace. -/
def pyStrip (s : String) : String :=
  ⟨((s.data.dropWhile isSpace).reverse.dropWhile isSpace).reverse⟩

/-- Dedup loop shared verbatim by `_dedupe_preserve_order` (gtn_loader.py
lines 96-105) and the second phase of `_normalize_id_list` (lines 84-93):
each entry is stripped; values that are empty or already seen are dropped,
the others are appended to the output and recorded as seen. -/
def dedupeAux (seen : List String) : List String → List String
  | [] => []
  | x :: rest =>
    let v := pyStrip x
    if v = "" ∨ v ∈ seen then dedupeAux seen rest
    else v :: dedupeAux (v :: seen) rest

/-- `_dedupe_preserve_order` (lines 96-105). -/
def dedupe_preserve_order (items : List String) : List String := dedupeAux [] items

/-- Specification-side description of first-seen deduplication: keep each
value's first occurrence and delete its later repeats.  Used only to state
what order `dedupe_preserve_order` preserves. -/
def keepFirst : List String → List String
  | [] => []
  | x :: rest => x :: keepFirst (rest.filter (fun y => y ≠ x))
termination_by l => l.length
decreasing_by
  simp only [List.length_cons]
  exact Nat.lt_succ_of_le (List.length_filter_le _ _)

/-- Entry shapes accepted inside the list case of `_normalize_id_list`
(lines 71-83): a bare string or a mapping.  Mappings are modelled as
string-valued association lists (`str(value)` in the code is the identity on
the string values we model). -/
inductive IdItem where
  | str (s : String)
  | dict (kv : List (String × String))

/-- Top-level shapes accepted by `_normalize_id_list` (lines 63-83): a bare
string, a mapping, a list of either, or anything else (which contributes no
ids). -/
inductive IdEntries where
  | str (s : String)
  | dict (kv : List (String × String))
  | list (es : List IdItem)
  | other

/-- Python `dict.get(key)` on the modelled mapping (keys unique, first match). -/
def getKV : List (String × String) → String → Option String
  | [], _ => none
  | p :: rest, k => if p.1 == k then some p.2 else getKV rest k

/-- Python `a or b or ...` over `.get` results: first value that is neither
absent nor empty (the only falsy string). -/
def firstTruthy : List (Option String) → Option String
  | [] => none
  | o :: rest =>
    match o with
    | some s => if s = "" then firstTruthy rest else some s
    | none => firstTruthy rest

/-- First phase of `_normalize_id_list` (lines 64-83): collect candidate id
strings from the accepted entry shapes, in order. -/
def collectIds (preferKey : String) : IdEntries → List String
  | .str s => [s]
  | .dict kv =>
    match firstTruthy [getKV kv preferKey, getKV kv "url", getKV kv "path"] with
    | some v => [v]
    | none => []
  | .list es =>
    es.flatMap (fun e =>
      match e with
      | .str s => [s]
      | .dict kv =>
        match firstTruthy
            [getKV kv preferKey, getKV kv "url", getKV kv "path", getKV kv "name"] with
        | some v => [v]
        | none => [])
  | .other => []

/-- `_normalize_id_list` (lines 63-93): collect ids then apply the dedup loop. -/
def normalize_id_list (preferKey : String) (entries : IdEntries) : List String :=
  dedupeAux [] (collectIds preferKey entries)

theorem keepFirst_subset (l : List String) : ∀ x ∈ keepFirst l, x ∈ l := by
  induction l using keepFirst.induct with
  | case1 => intro x hx; simp [keepFirst] at hx
  | case2 x rest ih =>
    intro y hy
    rw [keepFirst] at hy
    rcases List.mem_cons.mp hy with h | h
    · exact h ▸ List.mem_cons_self x rest
    · exact List.mem_cons_of_mem x (List.mem_of_mem_filter (ih y h))

theorem keepFirst_nodup (l : List String) : (keepFirst l).Nodup := by
  induction l using keepFirst.induct with
  | case1 => simp [keepFirst]
  | case2 x rest ih =>
    rw [keepFirst]
    refine List.nodup_cons.mpr ⟨?_, ih⟩
    intro hx
    have := List.of_mem_filter (keepFirst_subset _ x hx)
    simp at this

theorem keepFirst_sublist (l : List String) : (keepFirst l).Sublist l := by
  induction l using keepFirst.induct with
  | case1 => simp [keepFirst]
  | case2 x rest ih =>
    rw [keepFirst]
    exact List.Sublist.cons₂ x (ih.trans (List.filter_sublist rest))

theorem dedupeAux_eq_keepFirst (l : List String) (seen : List String) :
    dedupeAux seen l =
      keepFirst ((l.map pyStrip).filter (fun v => decide (v ≠ "" ∧ v ∉ seen))) := by
  induction l generalizing seen with
  | nil => simp [dedupeAux, keepFirst]
  | cons x rest ih =>
    simp only [dedupeAux, List.map_cons, List.filter_cons]
    by_cases hcond : pyStrip x = "" ∨ pyStrip x ∈ seen
    · rw [if_pos hcond]
      have hdec : decide (pyStrip x ≠ "" ∧ pyStrip x ∉ seen) = false := by
        simp only [decide_eq_false_iff_not]
        tauto
      rw [hdec]
      simp only [Bool.false_eq_true, if_false]
      exact ih seen
    · rw [if_neg hcond]
      push_neg at hcond
      have hdec : decide (pyStrip x ≠ "" ∧ pyStrip x ∉ seen) = true := by
        simp only [decide_eq_true_eq]
        exact hcond
      rw [hdec, if_pos rfl, keepFirst]
      congr 1
      rw [ih (pyStrip x :: seen), List.filter_filter]
      refine congrArg keepFirst (List.filter_congr ?_)
      intro v _
      by_cases h1 : v = pyStrip x <;> by_cases h2 : v = "" <;> by_cases h3 : v ∈ seen <;>
        simp [h1, h2, h3]

theorem dedupe_keepFirst (items : List String) :
    dedupe_preserve_order items =
      keepFirst ((items.map pyStrip).filter (fun v => decide (v ≠ ""))) := by
  rw [dedupe_preserve_order, dedupeAux_eq_keepFirst]
  refine congrArg keepFirst (List.filter_congr ?_)
  intro v _
  simp

/-- C4: identifier lists produced by the dedup loop of the tutorial loader
(hence the tool and workflow lists of every parsed tutorial record) equal the
first-seen-order deduplication of their stripped non-empty entries; they are
duplicate-free, contain no empty string, keep a subsequence of the stripped
input order, and `["a", "b", "a"]` maps to `["a", "b"]`.  The same holds for
both shapes produced by `_normalize_id_list`. -/
theorem id_lists_nodup_first_seen (l : List String) :
    dedupe_preserve_order l =
        keepFirst ((l.map pyStrip).filter (fun v => decide (v ≠ ""))) ∧
    (dedupe_preserve_order l).Nodup ∧
    (∀ s ∈ dedupe_preserve_order l, s ≠ "") ∧
    (dedupe_preserve_order l).Sublist (l.map pyStrip) ∧
    (∀ (pk : String) (e : IdEntries),
        (normalize_id_list pk e).Nodup ∧ ∀ s ∈ normalize_id_list pk e, s ≠ "") ∧
    dedupe_preserve_order ["a", "b", "a"] = ["a", "b"] := by
  have hmem : ∀ (m : List String), ∀ s ∈ dedupe_preserve_order m, s ≠ "" := by
    intro m s hs
    rw [dedupe_keepFirst] at hs
    have h2 := List.of_mem_filter (keepFirst_subset _ s hs)
    simpa using h2
  have hnodup : ∀ (m : List String), (dedupe_preserve_order m).Nodup := by
    intro m
    rw [dedupe_keepFirst]
    exact keepFirst_nodup _
  refine ⟨dedupe_keepFirst l, hnodup l, hmem l, ?_, ?_, by decide⟩
  · rw [dedupe_keepFirst]
    exact (keepFirst_sublist _).trans (List.filter_sublist _)
  · intro pk e
    exact ⟨hnodup (collectIds pk e), hmem (collectIds pk e)⟩

/-- Concrete instance of C4: the spec's example input, plus an emptiness check
on a member of its output. -/
theorem id_lists_nodup_first_seen_witness :
    dedupe_preserve_order ["a", "b", "a"] = ["a", "b"] ∧ "b" ≠ "" :=
  ⟨(id_lists_nodup_first_seen ["a", "b", "a"]).2.2.2.2.2,
   (id_lists_nodup_first_seen ["a", "b", "a"]).2.2.1 "b" (by decide)⟩

/-- Matching `\s*\n` at the start of `l`: the regex engine consumes `k`
whitespace characters and then requires a newline, trying the largest `k`
first.  One candidate remainder per newline inside the maximal whitespace run,
in backtracking (descending `k`) order. -/
def wsNlCandidates (l : List Char) : List (List Char) :=
  let run := l.takeWhile isSpace
  (((List.range run.length).filter (fun i => run.get? i = some '\n')).reverse).map
    (fun i => l.drop (i + 1))

/-- Does `l` begin with the closing delimiter `\n---\s*\n`?  If so return the
body after it.  The trailing `(.*)$` of the pattern always matches under
DOTALL, so the greedy (first) resolution of `\s*\n` is final. -/
def closeDelim (l : List Char) : Option (List Char) :=
  match l with
  | '\n' :: '-' :: '-' :: '-' :: tail => (wsNlCandidates tail).head?
  | _ => none

/-- Lazy group `(.*?)` scan: the shortest prefix of `l` whose remainder starts
with the closing delimiter, returned together with the body following it. -/
def findClose : List Char → Option (List Char × List Char)
  | [] => (closeDelim []).map (fun body => ([], body))
  | c :: rest =>
    match closeDelim (c :: rest) with
    | some body => some ([], body)
    | none => (findClose rest).map (fun p => (c :: p.1, p.2))

/-- `FRONT_MATTER_RE.match(text)` (gtn_loader.py line 13): anchored match of
`^---\s*\n(.*?)\n---\s*\n(.*)$` under DOTALL, returning the metadata block and
body groups.  Backtracking over the opening `\s*\n` tries longer whitespace
runs first; for each candidate the lazy scan finds the earliest closing
delimiter. -/
def matchFrontMatter (text : List Char) : Option (List Char × List Char) :=
  match text with
  | '-' :: '-' :: '-' :: rest => (wsNlCandidates rest).findSome? findClose
  | _ => none

/-- `parse_front_matter` (gtn_loader.py lines 17-24).  `yaml.safe_load` is an
external collaborator, so the function is parameterized by it: it may raise
(the `error` case) or return YAML null (`none`, turned into `{}` by the
`or {}` on line 23) or a mapping. -/
def parse_front_matter
    (safe_load : List Char → Except Unit (Option (List (String × String))))
    (text : List Char) : Except Unit (List (String × String) × List Char) :=
  match matchFrontMatter text with
  | none => .ok ([], text)
  | some (block, body) =>
    match safe_load block with
    | .error e => .error e
    | .ok m => .ok (m.getD [], body)

/-- C6 fails as stated: `parse_front_matter` is not total for every behaviour
of the external YAML loader.  On the concrete document
`"---\na: [1,\n---\nbody"` the front-matter pattern matches, the block
`"a: [1,"` is handed to `yaml.safe_load`, and a loader that fails there (as
pyyaml does on this unclosed flow sequence) makes `parse_front_matter`
raise. -/
theorem parse_front_matter_can_fail :
    ¬ (∀ (safe_load : List Char → Except Unit (Option (List (String × String))))
        (text : List Char), (parse_front_matter safe_load text).isOk = true) := by
  intro h
  have hx := h (fun _ => .error ()) "---\na: [1,\n---\nbody".toList
  exact absurd hx (by decide)

/-- C6 (amended): when the text does not start with a recognized
`---`-delimited front-matter block, `parse_front_matter` returns empty
metadata with the full input text as body, without consulting the YAML
loader; and it never raises provided the external YAML loader does not raise
on the extracted metadata block. -/
theorem parse_front_matter_no_match_identity
    (safe_load : List Char → Except Unit (Option (List (String × String))))
    (text : List Char) :
    (matchFrontMatter text = none →
      parse_front_matter safe_load text = .ok ([], text)) ∧
    ((∀ b, (safe_load b).isOk = true) →
      (parse_front_matter safe_load text).isOk = true) := by
  constructor
  · intro h
    simp [parse_front_matter, h]
  · intro h
    cases hm : matchFrontMatter text with
    | none => simp [parse_front_matter, hm, Except.isOk, Except.toBool]
    | some p =>
      obtain ⟨block, body⟩ := p
      have hb := h block
      cases hsl : safe_load block with
      | error e =>
        rw [hsl] at hb
        simp [Except.isOk, Except.toBool] at hb
      | ok m =>
        simp [parse_front_matter, hm, hsl, Except.isOk, Except.toBool]

/-- Concrete instance of the amended C6: a plain document with no front
matter comes back whole with empty metadata. -/
theorem parse_front_matter_no_match_identity_witness :
    parse_front_matter (fun _ => Except.ok none) "plain body".toList =
      Except.ok ([], "plain body".toList) :=
  (parse_front_matter_no_match_identity (fun _ => Except.ok none)
    "plain body".toList).1 (by decide)

/-- One entry of a workflow `steps` mapping (parse_workflow_files, gtn_loader.py
lines 219-227): the step key and the optional declared `tool_id` (absent or
YAML null modelled as `none`). -/
structure WfStep where
  key : String
  tool_id : Option String

/-- Python `str.isdigit()` restricted to ASCII digit strings. -/
def isDigitStr (s : String) : Bool := !s.isEmpty && s.data.all Char.isDigit

/-- Python `str.startswith("__")` on the step's tool id. -/
def startsWithUU (t : String) : Bool := "__".data.isPrefixOf t.data

/-- Sort key of line 223: `int(kv[0]) if str(kv[0]).isdigit() else str(kv[0])`.
Comparing an `int` key with a `str` key raises `TypeError` in Python, so the
cross-constructor cases of `keyLE` below are never exercised on step mappings
whose keys are all numeric or all non-numeric — the only mappings the code
sorts without crashing. -/
def sortKey (k : String) : ℕ ⊕ String :=
  if isDigitStr k then .inl (k.toNat?.getD 0) else .inr k

/-- Order on sort keys: numeric keys by value, string keys lexicographically. -/
def keyLE : (ℕ ⊕ String) → (ℕ ⊕ String) → Bool
  | .inl a, .inl b => decide (a ≤ b)
  | .inr a, .inr b => decide (a ≤ b)
  | .inl _, .inr _ => true
  | .inr _, .inl _ => false

/-- Step inclusion test of lines 224-226: the declared tool id must be present,
non-empty, and must not start with `"__"`. -/
def stepTool (s : WfStep) : Option String :=
  match s.tool_id with
  | none => none
  | some t => if t = "" ∨ startsWithUU t then none else some t

/-- Comparison used by `sorted(steps.items(), key=...)` on line 223. -/
def stepLE (a b : WfStep) : Bool := keyLE (sortKey a.key) (sortKey b.key)

/-- Ordered per-workflow tool sequence built on lines 222-227: the steps
sorted by the python key (python `sorted` is stable, as is `mergeSort`), then
filtered and mapped by the inclusion test. -/
def orderedStepTools (steps : List WfStep) : List String :=
  (steps.mergeSort stepLE).filterMap stepTool

theorem keyLE_trans (a b c : ℕ ⊕ String) (h1 : keyLE a b = true)
    (h2 : keyLE b c = true) : keyLE a c = true := by
  cases a <;> cases b <;> cases c <;> simp [keyLE] at *
  · exact le_trans h1 h2
  · exact le_trans h1 h2

theorem keyLE_total (a b : ℕ ⊕ String) : (keyLE a b || keyLE b a) = true := by
  cases a <;> cases b <;> simp [keyLE]
  · exact Nat.le_total _ _
  · exact le_total _ _

theorem stepTool_eq_some (s : WfStep) (t : String) :
    stepTool s = some t ↔
      (s.tool_id = some t ∧ t ≠ "" ∧ startsWithUU t = false) := by
  cases hid : s.tool_id with
  | none => simp [stepTool, hid]
  | some u =>
    by_cases hc : u = "" ∨ startsWithUU u
    · simp only [stepTool, hid, if_pos hc]
      constructor
      · intro h
        cases h
      · rintro ⟨hu, hne, hsw⟩
        obtain rfl : u = t := by injection hu
        rcases hc with h | h
        · exact absurd h hne
        · rw [h] at hsw
          cases hsw
    · simp only [stepTool, hid, if_neg hc]
      push_neg at hc
      constructor
      · intro h
        obtain rfl : u = t := by injection h
        exact ⟨rfl, hc.1, by simpa using hc.2⟩
      · rintro ⟨hu, _, _⟩
        exact hu

/-- C7: a step contributes a tool id to the per-workflow ordered sequence iff
its declared tool id is present, non-empty, and does not start with `"__"`;
and the sorted step order is numeric on all-numeric step keys and
lexicographic on all-non-numeric step keys. -/
theorem parse_workflow_step_order (steps : List WfStep) :
    (∀ t, t ∈ orderedStepTools steps ↔
        ∃ s ∈ steps, s.tool_id = some t ∧ t ≠ "" ∧ startsWithUU t = false) ∧
    ((∀ s ∈ steps, isDigitStr s.key = true) →
      (steps.mergeSort stepLE).Pairwise
        (fun a b => a.key.toNat?.getD 0 ≤ b.key.toNat?.getD 0)) ∧
    ((∀ s ∈ steps, isDigitStr s.key = false) →
      (steps.mergeSort stepLE).Pairwise (fun a b => a.key ≤ b.key)) := by
  have hperm := List.mergeSort_perm steps stepLE
  have hsorted := @List.sorted_mergeSort WfStep stepLE
    (fun a b c h1 h2 => keyLE_trans _ _ _ h1 h2)
    (fun a b => keyLE_total _ _)
    steps
  refine ⟨?_, ?_, ?_⟩
  · intro t
    rw [orderedStepTools, List.mem_filterMap]
    constructor
    · rintro ⟨s, hs, hst⟩
      exact ⟨s, hperm.subset hs, (stepTool_eq_some s t).mp hst⟩
    · rintro ⟨s, hs, hprop⟩
      exact ⟨s, hperm.symm.subset hs, (stepTool_eq_some s t).mpr hprop⟩
  · intro hdig
    refine hsorted.imp_of_mem ?_
    intro a b ha hb hab
    have hda := hdig a (hperm.subset ha)
    have hdb := hdig b (hperm.subset hb)
    simpa [stepLE, sortKey, hda, hdb, keyLE] using hab
  · intro hdig
    refine hsorted.imp_of_mem ?_
    intro a b ha hb hab
    have hda := hdig a (hperm.subset ha)
    have hdb := hdig b (hperm.subset hb)
    simpa [stepLE, sortKey, hda, hdb, keyLE] using hab

/-- Concrete instance of C7: an all-numeric step mapping is ordered by the
numeric key value. -/
theorem parse_workflow_step_order_witness :
    (([⟨"10", some "t1"⟩, ⟨"2", some "__subwf"⟩, ⟨"3", some "t2"⟩] :
        List WfStep).mergeSort stepLE).Pairwise
      (fun a b => a.key.toNat?.getD 0 ≤ b.key.toNat?.getD 0) :=
  (parse_workflow_step_order
    [⟨"10", some "t1"⟩, ⟨"2", some "__subwf"⟩, ⟨"3", some "t2"⟩]).2.1 (by decide)

end Loader

namespace AgentEval

/-! Embedding of `src/scripts/eval/run_v1_agent_eval.py` (lexical retrieval
index and resume semantics) and of the analogous resume loop of
`src/scripts/benchmark/generate_llm_predictions.py`. -/

/-- `_STOPWORDS` (run_v1_agent_eval.py lines 381-420). -/
def STOPWORDS : List String :=
  ["a", "an", "and", "are", "as", "at", "be", "before", "by", "can", "data",
   "dataset", "do", "for", "from", "have", "how", "i", "in", "into", "is",
   "it", "need", "of", "on", "or", "run", "should", "that", "the", "this",
   "to", "tool", "use", "using", "what", "which", "with"]

/-- Characters kept by the token pattern `[a-z0-9]` (after lowercasing). -/
def isAlnumLower (c : Char) : Bool :=
  ('a' ≤ c ∧ c ≤ 'z') ∨ ('0' ≤ c ∧ c ≤ '9')

/-- Split a character list at every character satisfying `p`, keeping empty
pieces.  `re.split(r"[^a-z0-9]+", ...)` collapses separator runs instead, but
the two differ only in extra empty pieces, all of which are removed by the
minimum-length filter of `_tokenize`. -/
def splitOnPred (p : Char → Bool) : List Char → List (List Char)
  | [] => [[]]
  | c :: rest =>
    if p c then [] :: splitOnPred p rest
    else
      match splitOnPred p rest with
      | [] => [[c]]
      | h :: t => (c :: h) :: t

/-- `_tokenize` (lines 423-433): lowercase, split on runs outside `[a-z0-9]`,
drop pieces shorter than 2 characters and stop-words. -/
def tokenize (text : String) : List String :=
  ((splitOnPred (fun c => !isAlnumLower c) (text.data.map Char.toLower)).map
      (fun cs => String.mk cs)).filter
    (fun part => decide (2 ≤ part.length ∧ part ∉ STOPWORDS))

/-- One tool-catalog line, with the fields `_tool_text` reads (each already
passed through `str(... or "")`). -/
structure ToolEntry where
  tool_id : String
  name : String
  description : String
deriving DecidableEq

/-- `_tool_text` (lines 436-440): space-join of id, name, description, then
stripped. -/
def tool_text (t : ToolEntry) : String :=
  Loader.pyStrip (t.tool_id ++ " " ++ t.name ++ " " ++ t.description)

/-- Denotation of the `postings` dict built by `build_inverted_index` (lines
464-481): the loop scans tools in ascending index order and appends each
index at most once per token (`seen_tokens` is a set), so the posting list of
`tok` is exactly the ascending list of indices of tools whose token set
contains `tok`. -/
def postingsFor (tools : List ToolEntry) (tok : String) : List ℕ :=
  (tools.enum.filter (fun p => (tokenize (tool_text p.2)).contains tok)).map Prod.fst

section Scores

variable {W : Type} [Add W]

/-- `scores[idx] = scores.get(idx, 0.0) + weight` (line 506) on the
insertion-ordered dict, modelled as an association list: bump the entry if
present, else append a fresh one. -/
def bumpScore (i : ℕ) (w : W) : List (ℕ × W) → List (ℕ × W)
  | [] => [(i, w)]
  | (j, v) :: rest =>
    if j = i then (j, v + w) :: rest else (j, v) :: bumpScore i w rest

/-- Score-accumulation loop of `select_candidates` (lines 498-506): for each
query token whose posting list is non-empty, add its idf weight to every
posted tool index (a token absent from the index has posting list `[]` and is
skipped, exactly like `if not tool_idxs: continue`).  The idf weights are
floats computed with `math.log` (line 480); they enter only through the
opaque weight map `idf`. -/
def accumScores (postings : String → List ℕ) (idf : String → W)
    (tokens : List String) : List (ℕ × W) :=
  tokens.foldl (fun scores tok =>
    (postings tok).foldl (fun sc i => bumpScore i (idf tok) sc) scores) []

/-- `select_candidates` (lines 491-516): when no score accumulated, fall back
to the first `candidate_k` tools in catalog order; otherwise rank by
`(-score, idx)` and return the corresponding tools (the ranked indices all
come from `enum`, so the `get?` never misses). -/
def select_candidates [LinearOrder W] (query : String) (tools : List ToolEntry)
    (idf : String → W) (candidate_k : ℕ) : List ToolEntry :=
  let scores := accumScores (postingsFor tools) idf (tokenize query)
  if scores.isEmpty then tools.take candidate_k
  else
    ((scores.mergeSort
        (fun a b => decide (b.2 < a.2 ∨ (a.2 = b.2 ∧ a.1 ≤ b.1)))).take
      candidate_k).filterMap (fun p => tools.get? p.1)

theorem postingsFor_eq_nil (tools : List ToolEntry) (tok : String)
    (h : ∀ tool ∈ tools, tok ∉ tokenize (tool_text tool)) :
    postingsFor tools tok = [] := by
  rw [postingsFor, List.map_eq_nil_iff]
  rw [List.filter_eq_nil_iff]
  intro p hp
  have hmem : p.2 ∈ tools := by
    have := List.enum_map_snd tools
    exact this ▸ List.mem_map_of_mem Prod.snd hp
  simpa using h p.2 hmem

theorem accumScores_eq_nil (postings : String → List ℕ) (idf : String → W)
    (tokens : List String) (h : ∀ tok ∈ tokens, postings tok = []) :
    accumScores postings idf tokens = [] := by
  rw [accumScores]
  induction tokens with
  | nil => rfl
  | cons tok rest ih =>
    rw [List.foldl_cons, h tok (List.mem_cons_self tok rest)]
    exact ih (fun t ht => h t (List.mem_cons_of_mem tok ht))

/-- C5: if no token of the query (lowercased, split on non-alphanumeric runs,
minus short tokens and stop-words) occurs among the tokens of any catalog
entry — in particular for queries of only stop-words or unknown words —
`select_candidates` returns exactly the first `candidate_k` catalog entries
in catalog order, whatever the idf weights are. -/
theorem select_candidates_fallback_first_k [LinearOrder W] (query : String)
    (tools : List ToolEntry) (idf : String → W) (candidate_k : ℕ)
    (h : ∀ t ∈ tokenize query, ∀ tool ∈ tools, t ∉ tokenize (tool_text tool)) :
    select_candidates query tools idf candidate_k = tools.take candidate_k := by
  have hscores : accumScores (postingsFor tools) idf (tokenize query) = [] :=
    accumScores_eq_nil _ _ _ (fun tok ht => postingsFor_eq_nil tools tok (h tok ht))
  rw [select_candidates]
  simp only [hscores, List.isEmpty_nil, if_true]

end Scores

/-- Concrete instance of C5: a query of unknown words and a stop-word against
a two-entry catalog falls back to the first entry. -/
theorem select_candidates_fallback_first_k_witness :
    select_candidates "qqq zzz the"
      [⟨"t1", "align reads", ""⟩, ⟨"t2", "trim adapters", ""⟩]
      (fun _ => (1 : ℚ)) 1 =
      [⟨"t1", "align reads", ""⟩] :=
  (select_candidates_fallback_first_k "qqq zzz the"
      [⟨"t1", "align reads", ""⟩, ⟨"t2", "trim adapters", ""⟩]
      (fun _ => (1 : ℚ)) 1 (by decide)).trans (by decide)

end AgentEval

namespace Resume

/-- One benchmark entry as read from the gold JSONL: `entry.get("id")` may be
absent (`none`) or an empty string, both of which the loops skip. -/
structure GoldEntry where
  id : Option String
  query : String
  tools : List String

/-- `if args.max_queries and processed >= args.max_queries` (run_v1_agent_eval
line 582 and generate_llm_predictions line 260): `None` and `0` are falsy. -/
def capReached (maxQueries : Option ℕ) (processed : ℕ) : Bool :=
  match maxQueries with
  | some m => !(m == 0) && m ≤ processed
  | none => false

/-- Main loop of `generate_predictions` (run_v1_agent_eval.py lines 575-644)
as the sequence of `{"id", "predictions"}` lines appended to the output file.
The per-entry predictions (the oracle / retrieval / LLM branches of lines
585-637, followed by `unique_in_order(...)[:top_k]`) are produced by the
external `predict` function; the loop skips entries without a usable id
(line 578), skips ids already present when resume is on (line 580), stops at
the query cap (line 582), and records each written id (line 641).  The
`do_resume` flag is modelled as a decidable proposition. -/
def genLoop (doResume : Prop) [Decidable doResume] (maxQueries : Option ℕ)
    (predict : GoldEntry → List String) :
    List GoldEntry → List String → ℕ → List (String × List String)
  | [], _, _ => []
  | e :: rest, existing, processed =>
    match e.id with
    | none => genLoop doResume maxQueries predict rest existing processed
    | some qid =>
      if qid = "" then genLoop doResume maxQueries predict rest existing processed
      else if doResume ∧ qid ∈ existing then
        genLoop doResume maxQueries predict rest existing processed
      else if capReached maxQueries processed then []
      else (qid, predict e) ::
        genLoop doResume maxQueries predict rest (qid :: existing) (processed + 1)

/-- Main loop of `generate_llm_predictions.main` (lines 253-287), same shape
but with skip-existing instead of resume and a fallible `predict` (the
`except` of lines 277-279 logs and continues without writing, without
counting, and without recording the id). -/
def mainLoop (skipExisting : Prop) [Decidable skipExisting]
    (maxQueries : Option ℕ) (predict : GoldEntry → Option (List String)) :
    List GoldEntry → List String → ℕ → List (String × List String)
  | [], _, _ => []
  | e :: rest, existing, processed =>
    match e.id with
    | none => mainLoop skipExisting maxQueries predict rest existing processed
    | some qid =>
      if qid = "" then mainLoop skipExisting maxQueries predict rest existing processed
      else if skipExisting ∧ qid ∈ existing then
        mainLoop skipExisting maxQueries predict rest existing processed
      else if capReached maxQueries processed then []
      else
        match predict e with
        | none => mainLoop skipExisting maxQueries predict rest existing processed
        | some preds => (qid, preds) ::
            mainLoop skipExisting maxQueries predict rest (qid :: existing) (processed + 1)

theorem genLoop_not_written (x : String) (maxQ : Option ℕ)
    (predict : GoldEntry → List String) (entries : List GoldEntry) :
    ∀ existing processed, x ∈ existing →
      x ∉ (genLoop True maxQ predict entries existing processed).map Prod.fst := by
  induction entries with
  | nil =>
    intro existing processed _
    simp [genLoop]
  | cons e rest ih =>
    intro existing processed hx
    cases hid : e.id with
    | none =>
      simp only [genLoop, hid]
      exact ih existing processed hx
    | some qid =>
      by_cases hq : qid = ""
      · simp only [genLoop, hid, if_pos hq]
        exact ih existing processed hx
      · by_cases hmem : qid ∈ existing
        · simp only [genLoop, hid, if_neg hq,
            if_pos (show True ∧ qid ∈ existing from ⟨trivial, hmem⟩)]
          exact ih existing processed hx
        · have hnc : ¬(True ∧ qid ∈ existing) := fun hc => hmem hc.2
          cases hcap : capReached maxQ processed with
          | true =>
            simp only [genLoop, hid, if_neg hq, if_neg hnc, hcap, if_pos rfl]
            simp
          | false =>
            have hne : x ≠ qid := fun hxq => hmem (hxq ▸ hx)
            have hrest := ih (qid :: existing) (processed + 1)
              (List.mem_cons_of_mem qid hx)
            simp only [genLoop, hid, if_neg hq, if_neg hnc, hcap,
              Bool.false_eq_true, if_false, List.map_cons]
            intro hin
            rcases List.mem_cons.mp hin with h | h
            · exact hne h
            · exact hrest h

theorem mainLoop_not_written (x : String) (maxQ : Option ℕ)
    (predict : GoldEntry → Option (List String)) (entries : List GoldEntry) :
    ∀ existing processed, x ∈ existing →
      x ∉ (mainLoop True maxQ predict entries existing processed).map Prod.fst := by
  induction entries with
  | nil =>
    intro existing processed _
    simp [mainLoop]
  | cons e rest ih =>
    intro existing processed hx
    cases hid : e.id with
    | none =>
      simp only [mainLoop, hid]
      exact ih existing processed hx
    | some qid =>
      by_cases hq : qid = ""
      · simp only [mainLoop, hid, if_pos hq]
        exact ih existing processed hx
      · by_cases hmem : qid ∈ existing
        · simp only [mainLoop, hid, if_neg hq,
            if_pos (show True ∧ qid ∈ existing from ⟨trivial, hmem⟩)]
          exact ih existing processed hx
        · have hnc : ¬(True ∧ qid ∈ existing) := fun hc => hmem hc.2
          cases hcap : capReached maxQ processed with
          | true =>
            simp only [mainLoop, hid, if_neg hq, if_neg hnc, hcap, if_pos rfl]
            simp
          | false =>
            cases hp : predict e with
            | none =>
              simp only [mainLoop, hid, if_neg hq, if_neg hnc, hcap,
                Bool.false_eq_true, if_false, hp]
              exact ih existing processed hx
            | some preds =>
              have hne : x ≠ qid := fun hxq => hmem (hxq ▸ hx)
              have hrest := ih (qid :: existing) (processed + 1)
                (List.mem_cons_of_mem qid hx)
              simp only [mainLoop, hid, if_neg hq, if_neg hnc, hcap,
                Bool.false_eq_true, if_false, hp, List.map_cons]
              intro hin
              rcases List.mem_cons.mp hin with h | h
              · exact hne h
              · exact hrest h

/-- C8: with resume (or skip-existing) enabled, an id `x` that is in the set
of identifiers loaded from the existing output file is never written again —
in either prediction generator, for every entry list, prediction oracle, cap
and prior progress counter. -/
theorem resume_never_rewrites_existing (x : String) (maxQ : Option ℕ)
    (predictA : GoldEntry → List String)
    (predictB : GoldEntry → Option (List String))
    (entries : List GoldEntry) (existing : List String) (processed : ℕ)
    (hx : x ∈ existing) :
    x ∉ (genLoop True maxQ predictA entries existing processed).map Prod.fst ∧
    x ∉ (mainLoop True maxQ predictB entries existing processed).map Prod.fst :=
  ⟨genLoop_not_written x maxQ predictA entries existing processed hx,
   mainLoop_not_written x maxQ predictB entries existing processed hx⟩

/-- Concrete instance of C8: id `"x"` already in the output file is skipped
even though the gold list asks for it again. -/
theorem resume_never_rewrites_existing_witness :
    "x" ∉ (genLoop True none (fun e => e.tools)
        [⟨some "x", "q1", ["t"]⟩, ⟨some "y", "q2", ["u"]⟩] ["x"] 0).map Prod.fst ∧
    "x" ∉ (mainLoop True none (fun e => some e.tools)
        [⟨some "x", "q1", ["t"]⟩, ⟨some "y", "q2", ["u"]⟩] ["x"] 0).map Prod.fst :=
  resume_never_rewrites_existing "x" none (fun e => e.tools) (fun e => some e.tools)
    [⟨some "x", "q1", ["t"]⟩, ⟨some "y", "q2", ["u"]⟩] ["x"] 0 (by decide)

end Resume

namespace QueryGen

/-! Embedding of `generate_queries_for_tutorial`
(src/gtn_benchmark/query_generator.py lines 198-272): the mapping from the
model's returned query blocks to benchmark items. -/

/-- One block of the model response's `queries` list, restricted to the fields
the mapping loop reads.  `none` models an absent key (`dict.get`). -/
structure QueryBlock where
  query : String
  id_suffix : Option String
  tool_focus : Option String
  query_type : Option String
  tools : Option (List String)
deriving DecidableEq

/-- The produced benchmark item, restricted to the fields the claims are
about: its `tools` list and, from its metadata mapping, the `query_type` and
`tool_focus` entries (lines 259-260). -/
structure BenchmarkItem where
  id : String
  query : String
  tools : List String
  query_type : String
  tool_focus : Option String
deriving DecidableEq

/-- `f"q{idx:02d}"` (line 206) for the 1-based positions that occur. -/
def defaultSuffix (idx : ℕ) : String :=
  "q" ++ (if idx < 10 then "0" ++ toString idx else toString idx)

/-- Body of the mapping loop (lines 201-272) at 1-based position `idx`:
blocks whose stripped query text is empty produce no item (lines 202-204);
when the tutorial declares tools, the target tool and the query type are
computed from `idx` alone (lines 216-223), overriding whatever
`tool_focus` / `query_type` / `tools` the block carries; otherwise those
block fields are used (lines 224-229). -/
def processBlock (tutTools : List String) (shortName : String) (idx : ℕ)
    (b : QueryBlock) : Option BenchmarkItem :=
  let qt := Loader.pyStrip b.query
  if qt = "" then none
  else
    let suffix :=
      match b.id_suffix with
      | some s => if s = "" then defaultSuffix idx else s
      | none => defaultSuffix idx
    if tutTools.isEmpty then
      some { id := shortName ++ "-" ++ suffix
             query := qt
             tools := ((b.tools.getD []).map Loader.pyStrip).filter
               (fun t => decide (t ≠ ""))
             query_type := b.query_type.getD "unknown"
             tool_focus := b.tool_focus }
    else
      let target := tutTools.getD ((idx - 1) / 4 % tutTools.length) ""
      some { id := shortName ++ "-" ++ suffix
             query := qt
             tools := [target]
             query_type := if (idx - 1) % 4 < 2 then "science_first" else "tool_first"
             tool_focus := some target }

/-- The full mapping loop `for idx, query_block in enumerate(payload, start=1)`
(line 201): benchmark items from all blocks, in order. -/
def generate_items (tutTools : List String) (shortName : String)
    (payload : List QueryBlock) : List BenchmarkItem :=
  (List.enumFrom 1 payload).filterMap (fun p => processBlock tutTools shortName p.1 p.2)

theorem enumFrom_get? (l : List QueryBlock) (n m : ℕ) :
    (List.enumFrom n l).get? m = (l.get? m).map (fun b => (n + m, b)) := by
  induction l generalizing n m with
  | nil => rfl
  | cons a t ih =>
    cases m with
    | zero => simp [List.enumFrom]
    | succ m =>
      simp only [List.enumFrom, List.get?, ih (n + 1) m]
      cases t.get? m with
      | none => rfl
      | some b =>
        simp only [Option.map_some']
        refine congrArg (fun k => some (k, b)) ?_
        omega

/-- C1: when the tutorial declares a non-empty tool list, the benchmark item
built from the `i`-th returned query block (1-indexed over all returned
blocks) carries exactly the single tool `tools[((i-1)//4) mod N]` and query
type `science_first` iff `(i-1) mod 4 < 2`, regardless of the block's own
`tool_focus` / `query_type` / `tools` fields, and that item is among the
items emitted for the payload. -/
theorem generate_queries_rotation (tutTools : List String) (shortName : String)
    (payload : List QueryBlock) (i : ℕ) (b : QueryBlock) (item : BenchmarkItem)
    (hne : tutTools ≠ []) (hi : 1 ≤ i)
    (hb : payload.get? (i - 1) = some b)
    (hitem : processBlock tutTools shortName i b = some item) :
    item ∈ generate_items tutTools shortName payload ∧
    item.tools = [tutTools.getD ((i - 1) / 4 % tutTools.length) ""] ∧
    item.query_type =
      (if (i - 1) % 4 < 2 then "science_first" else "tool_first") := by
  have hemp : tutTools.isEmpty = false := by
    cases tutTools with
    | nil => exact absurd rfl hne
    | cons a t => rfl
  constructor
  · rw [generate_items, List.mem_filterMap]
    refine ⟨(i, b), ?_, ?_⟩
    · have hget : (List.enumFrom 1 payload).get? (i - 1) = some (i, b) := by
        rw [enumFrom_get?, hb, Option.map_some']
        refine congrArg (fun k => some (k, b)) ?_
        omega
      exact List.get?_mem hget
    · exact hitem
  · by_cases hq : Loader.pyStrip b.query = ""
    · rw [processBlock] at hitem
      simp only [hq, if_pos rfl] at hitem
      cases hitem
    · rw [processBlock] at hitem
      simp only [if_neg hq, hemp, Bool.false_eq_true, if_false] at hitem
      obtain rfl := Option.some.inj hitem
      exact ⟨rfl, rfl⟩

/-- Concrete instance of C1: two declared tools, fifth returned block — the
wrap-around assigns tool index `(5-1)//4 mod 2 = 1` and query type
`science_first` (`(5-1) mod 4 = 0 < 2`), ignoring the block's own fields. -/
theorem generate_queries_rotation_witness :
    (⟨"sn-q05", "Q text", ["t2"], "science_first", some "t2"⟩ : BenchmarkItem) ∈
      generate_items ["t1", "t2"] "sn"
        [⟨"x", none, none, none, none⟩, ⟨"x", none, none, none, none⟩,
         ⟨"x", none, none, none, none⟩, ⟨"x", none, none, none, none⟩,
         ⟨"Q text", none, some "wrong", some "tool_first", some ["bogus"]⟩] ∧
    (["t2"] : List String) = ["t2"] ∧
    ("science_first" : String) = "science_first" := by
  have h := generate_queries_rotation ["t1", "t2"] "sn"
    [⟨"x", none, none, none, none⟩, ⟨"x", none, none, none, none⟩,
     ⟨"x", none, none, none, none⟩, ⟨"x", none, none, none, none⟩,
     ⟨"Q text", none, some "wrong", some "tool_first", some ["bogus"]⟩]
    5 ⟨"Q text", none, some "wrong", some "tool_first", some ["bogus"]⟩
    ⟨"sn-q05", "Q text", ["t2"], "science_first", some "t2"⟩
    (by decide) (by decide) (by decide) (by decide)
  exact ⟨h.1, by decide, by decide⟩

end QueryGen
